import Mathlib

/-!
Verification of the Chunking Strategy Benchmark and Knowledge Base Pipeline.

The repository ships the pipeline's callers (a test script and demo
scripts); the pipeline core itself (document model, chunking strategies,
strategy comparator, embedding generator, knowledge-base store) is not
among the shipped source files.  Definitions for those components are
therefore modelled from the specification, as marked in their doc
comments.  The two helper functions that are present in source
(make_request in connector_demo.py and get_test_document in
test_chunking_comparison.py) are embedded directly from the source.
-/

namespace Pipeline

/-- Modelled from the spec: a page of a parsed document, with its 1-based
page number and extracted text (text is modelled as a list of
characters). -/
structure Page where
  page_number : Nat
  text : List Char
deriving DecidableEq

/-- Modelled from the spec: a parsed document is a caller-supplied stable
identifier with an ordered sequence of pages. -/
structure ParsedDocument where
  document_id : String
  pages : List Page
deriving DecidableEq

/-- Full document text: concatenation of the page texts in page order. -/
def docText (d : ParsedDocument) : List Char :=
  (d.pages.map Page.text).flatten

/-- Modelled from the spec: a chunk of document text with its ordinal,
the pages it spans, its character span relative to the full document
text, and the producing strategy's name. -/
structure Chunk where
  text : List Char
  ordinal : Nat
  source_pages : List Nat
  span_start : Nat
  span_end : Nat
  strategy_name : String
deriving DecidableEq

/-- Modelled from the spec: errors raised by chunking strategies;
invalid strategy parameters raise a configuration error. -/
inductive ChunkError where
  | configurationError (msg : String)
  | strategyFailure (msg : String)
deriving DecidableEq

/-- Message text carried by a chunking error. -/
def ChunkError.message : ChunkError → String
  | .configurationError m => m
  | .strategyFailure m => m

/-- Page offset table: each page paired with the half-open interval of
the full document text that it occupies. -/
def pageOffsets (pos : Nat) : List Page → List (Nat × Nat × Nat)
  | [] => []
  | p :: ps => (p.page_number, pos, pos + p.text.length) :: pageOffsets (pos + p.text.length) ps

/-- Page numbers of the pages whose text range intersects the half-open
span [s, e). -/
def pagesSpanning (offs : List (Nat × Nat × Nat)) (s e : Nat) : List Nat :=
  (offs.filter (fun t => decide (t.2.1 < e) && decide (s < t.2.2))).map (fun t => t.1)

/-- Groups a list into consecutive runs of k elements (at least one per
group, so a zero group size is treated as one); the last group may be
shorter. -/
def chunksOf (k : Nat) : List α → List (List α)
  | [] => []
  | x :: xs => (x :: xs).take (max 1 k) :: chunksOf k ((x :: xs).drop (max 1 k))
termination_by l => l.length
decreasing_by
  simp only [List.length_drop, List.length_cons]
  omega

/-- Assembles chunks from segments (text plus source pages), assigning
consecutive ordinals and cumulative character spans starting at pos. -/
def assemble (name : String) (ord pos : Nat) : List (List Char × List Nat) → List Chunk
  | [] => []
  | (s, pgs) :: rest =>
    ⟨s, ord, pgs, pos, pos + s.length, name⟩ :: assemble name (ord + 1) (pos + s.length) rest

/-- Modelled from the spec: configuration surface consumed by the core. -/
structure ChunkConfig where
  max_chars : Nat
  overlap_chars : Nat
  pages_per_chunk : Nat
  target_chunk_size : ℚ
deriving DecidableEq

/-- Modelled from the spec: the page-aligned strategy groups
pages_per_chunk consecutive pages into one chunk each; the chunk's
source pages are exactly the page numbers of its group. -/
def pageAlignedChunks (cfg : ChunkConfig) (d : ParsedDocument) :
    Except ChunkError (List Chunk) :=
  .ok (assemble "page_aligned" 0 0
    ((chunksOf cfg.pages_per_chunk d.pages).map
      (fun g => ((g.map Page.text).flatten, g.map Page.page_number))))

/-- Fixed-size windows over a character list: windows of m characters
whose starts advance by m - o (at least one) so that consecutive windows
share o characters; the last window may be shorter. -/
def windows (m o : Nat) (t : List Char) : List (List Char) :=
  if t = [] then []
  else if t.length ≤ m then [t]
  else t.take m :: windows m o (t.drop (max 1 (m - o)))
termination_by t.length
decreasing_by
  rename_i h1 h2
  simp only [List.length_drop]
  have : t.length ≠ 0 := fun hz => h1 (List.eq_nil_of_length_eq_zero hz)
  omega

/-- Fixed-size chunk assembly: mirrors windows but also records ordinals,
character spans and the pages each span intersects. -/
def fixedChunksGo (m o : Nat) (offs : List (Nat × Nat × Nat)) (ord pos : Nat)
    (t : List Char) : List Chunk :=
  if t = [] then []
  else if t.length ≤ m then
    [⟨t, ord, pagesSpanning offs pos (pos + t.length), pos, pos + t.length, "fixed_size"⟩]
  else
    ⟨t.take m, ord, pagesSpanning offs pos (pos + m), pos, pos + m, "fixed_size"⟩ ::
      fixedChunksGo m o offs (ord + 1) (pos + max 1 (m - o)) (t.drop (max 1 (m - o)))
termination_by t.length
decreasing_by
  rename_i h1 h2
  simp only [List.length_drop]
  have : t.length ≠ 0 := fun hz => h1 (List.eq_nil_of_length_eq_zero hz)
  omega

/-- Modelled from the spec: the fixed-size strategy splits the
concatenated document text into windows of max_chars with overlap_chars
of overlap; it fails with a configuration error when the overlap exceeds
max_chars - 1 (equivalently, when max_chars ≤ overlap_chars). -/
def fixedSizeChunks (cfg : ChunkConfig) (d : ParsedDocument) :
    Except ChunkError (List Chunk) :=
  if cfg.max_chars ≤ cfg.overlap_chars then
    .error (.configurationError "overlap_chars must not exceed max_chars - 1")
  else
    .ok (fixedChunksGo cfg.max_chars cfg.overlap_chars (pageOffsets 0 d.pages) 0 0 (docText d))

/-- Splits a character list into units ending right after each newline,
keeping every character (acc holds the current unit reversed). -/
def splitUnitsGo (acc : List Char) : List Char → List (List Char)
  | [] => if acc = [] then [] else [acc.reverse]
  | c :: rest =>
    if c = '\n' then (c :: acc).reverse :: splitUnitsGo [] rest
    else splitUnitsGo (c :: acc) rest

/-- Greedily packs units into groups of at most m characters; a unit
longer than m becomes its own oversized group. -/
def packGo (m : Nat) (cur : List Char) : List (List Char) → List (List Char)
  | [] => if cur = [] then [] else [cur]
  | u :: rest =>
    if cur = [] then
      if u.length ≤ m then packGo m u rest
      else u :: packGo m [] rest
    else
      if cur.length + u.length ≤ m then packGo m (cur ++ u) rest
      else cur :: (if u.length ≤ m then packGo m u rest
                   else u :: packGo m [] rest)

/-- Pairs each segment with the pages its cumulative span intersects. -/
def withPages (offs : List (Nat × Nat × Nat)) (pos : Nat) :
    List (List Char) → List (List Char × List Nat)
  | [] => []
  | s :: rest => (s, pagesSpanning offs pos (pos + s.length)) :: withPages offs (pos + s.length) rest

/-- Modelled from the spec: the semantic strategy splits the document
text on paragraph boundaries (units ending at newlines) and greedily
packs units up to max_chars, a unit longer than max_chars becoming its
own oversized chunk. -/
def semanticChunks (cfg : ChunkConfig) (d : ParsedDocument) :
    Except ChunkError (List Chunk) :=
  .ok (assemble "semantic" 0 0
    (withPages (pageOffsets 0 d.pages) 0
      (packGo cfg.max_chars [] (splitUnitsGo [] (docText d)))))

/-- Fraction of chunks whose source_pages set has size 1; zero when
there are no chunks. -/
def pageScore (cs : List Chunk) : ℚ :=
  if cs.length = 0 then 0
  else (cs.countP (fun c => c.source_pages.length = 1) : ℚ) / (cs.length : ℚ)

/-- Average chunk length in characters; zero when there are no chunks. -/
def avgChunkChars (cs : List Chunk) : ℚ :=
  if cs.length = 0 then 0
  else ((cs.map (fun c => c.text.length)).sum : ℚ) / (cs.length : ℚ)

/-- Modelled from the spec: per-strategy metrics record. -/
structure StrategyMetrics where
  chunk_count : Nat
  avg_chunk_chars : ℚ
  min_chunk_chars : Nat
  max_chunk_chars : Nat
  page_preservation_score : ℚ
deriving DecidableEq

/-- Computes the metrics record for one strategy's chunk list. -/
def computeMetrics (cs : List Chunk) : StrategyMetrics :=
  { chunk_count := cs.length
    avg_chunk_chars := avgChunkChars cs
    min_chunk_chars := (cs.map (fun c => c.text.length)).foldr min 0
    max_chunk_chars := (cs.map (fun c => c.text.length)).foldr max 0
    page_preservation_score := pageScore cs }

/-- Modelled from the spec: a pluggable chunking strategy, a name plus a
pure chunking function. -/
structure Strategy where
  name : String
  run : ParsedDocument → ChunkConfig → Except ChunkError (List Chunk)

/-- Successful outcome of running one strategy: its chunks and metrics. -/
structure StrategyOutcome where
  name : String
  chunks : List Chunk
  metrics : StrategyMetrics
deriving DecidableEq

/-- Modelled from the spec: the comparator's recommendation, the chosen
strategy name plus the stated reason. -/
structure Recommendation where
  strategy_name : String
  reason : String
deriving DecidableEq

/-- Modelled from the spec: the comparison report with per-strategy
results, the failed strategies with their error messages, and the
recommendation (absent when no strategy is eligible). -/
structure ComparisonReport where
  document_id : String
  results : List StrategyOutcome
  failed_strategies : List (String × String)
  recommendation : Option Recommendation
deriving DecidableEq

/-- Runs every strategy over the document, splitting the outcomes into
successes (with computed metrics) and failures (with error messages). -/
def runStrategies (d : ParsedDocument) (cfg : ChunkConfig) :
    List Strategy → List StrategyOutcome × List (String × String)
  | [] => ([], [])
  | s :: rest =>
    let (oks, fails) := runStrategies d cfg rest
    match s.run d cfg with
    | .ok cs => (⟨s.name, cs, computeMetrics cs⟩ :: oks, fails)
    | .error e => (oks, (s.name, e.message) :: fails)

/-- Eligible outcomes: strategies that succeeded with at least one chunk. -/
def eligible (outcomes : List StrategyOutcome) : List StrategyOutcome :=
  outcomes.filter (fun o => o.metrics.chunk_count ≠ 0)

/-- Ranking key of an outcome: lexicographically, higher
page_preservation_score first (negated so smaller key wins), then
smaller absolute distance of avg_chunk_chars from the target, then
lexicographically smaller strategy name. -/
def rkey (target : ℚ) (o : StrategyOutcome) : Lex (ℚ × Lex (ℚ × String)) :=
  toLex (-o.metrics.page_preservation_score,
    toLex (|o.metrics.avg_chunk_chars - target|, o.name))

/-- Picks the outcome with the least ranking key (later list elements
win exact key ties, which cannot change the key itself). -/
def pickBest (target : ℚ) : List StrategyOutcome → Option StrategyOutcome
  | [] => none
  | o :: rest =>
    match pickBest target rest with
    | none => some o
    | some b => if rkey target o < rkey target b then some o else some b

/-- Reason text for a recommendation. -/
def mkReason (o : StrategyOutcome) : String :=
  "highest page preservation with near-target average size for " ++ o.name

/-- Modelled from the spec: the comparator runs each strategy
independently, records failures, discards failed or zero-chunk
strategies, and recommends the best remaining strategy under the
deterministic ranking. -/
def compare (d : ParsedDocument) (cfg : ChunkConfig) (ss : List Strategy) :
    ComparisonReport :=
  let rs := runStrategies d cfg ss
  { document_id := d.document_id
    results := rs.1
    failed_strategies := rs.2
    recommendation :=
      (pickBest cfg.target_chunk_size (eligible rs.1)).map
        (fun o => ⟨o.name, mkReason o⟩) }

/-- Modelled from the spec: a persisted knowledge-base entry, one chunk
(identified by its ordinal-derived chunk id) with its embedding vector,
keyed by (document_id, chunk_id). -/
structure KnowledgeBaseEntry where
  document_id : String
  chunk_id : Nat
  text : List Char
  vector : List ℚ
deriving DecidableEq

/-- The knowledge-base store's index: the list of persisted entries. -/
abbrev Store := List KnowledgeBaseEntry

/-- Modelled from the spec: errors of the knowledge-base store and the
embedding stage. -/
inductive KBError where
  | countMismatch
  | dimensionMismatch
  | notFound
  | emptyIndex
deriving DecidableEq

/-- Modelled from the spec: result record of a successful ingest. -/
structure IngestResult where
  document_id : String
  chunk_count : Nat
  embedded_count : Nat
  failed_count : Nat
deriving DecidableEq

/-- Removes every entry of the given document from the store. -/
def removeDoc (docId : String) : Store → Store
  | [] => []
  | e :: rest =>
    if e.document_id = docId then removeDoc docId rest
    else e :: removeDoc docId rest

/-- Entries persisted for one document, in store order. -/
def entriesFor (docId : String) (st : Store) : Store :=
  st.filter (fun e => e.document_id = docId)

/-- Builds the knowledge-base entries for a document from chunks and
their embedding vectors, pairing them positionally. -/
def mkEntries (docId : String) : List Chunk → List (List ℚ) → Store
  | [], _ => []
  | _, [] => []
  | c :: cs, v :: vs => ⟨docId, c.ordinal, c.text, v⟩ :: mkEntries docId cs vs

/-- Checks that all vectors share one dimensionality. -/
def dimsConsistent : List (List ℚ) → Bool
  | [] => true
  | v :: vs => vs.all (fun w => w.length = v.length)

/-- Modelled from the spec: ingest is atomic per document, replacing all
prior entries of document_id with the new set on success and leaving the
store untouched on failure (count mismatch between chunks and
embeddings, or inconsistent embedding dimensionality). -/
def ingest (st : Store) (docId : String) (chunks : List Chunk)
    (embs : List (List ℚ)) : Store × Except KBError IngestResult :=
  if chunks.length ≠ embs.length then (st, .error .countMismatch)
  else if ¬ dimsConsistent embs then (st, .error .dimensionMismatch)
  else
    (removeDoc docId st ++ mkEntries docId chunks embs,
     .ok ⟨docId, chunks.length, embs.length, 0⟩)

/-- Whether an entry passes the optional document filter. -/
def matchesFilter (filt : Option String) (e : KnowledgeBaseEntry) : Bool :=
  match filt with
  | none => true
  | some d => e.document_id = d

/-- Search ranking relation: strictly greater similarity score first,
ties broken by ascending chunk id. -/
def rankRel (score : List ℚ → List ℚ → ℚ) (q : List ℚ)
    (a b : KnowledgeBaseEntry) : Prop :=
  score q b.vector < score q a.vector ∨
    (score q a.vector = score q b.vector ∧ a.chunk_id ≤ b.chunk_id)

instance rankRelDecidable (score : List ℚ → List ℚ → ℚ) (q : List ℚ) :
    DecidableRel (rankRel score q) := fun a b => by
  unfold rankRel; infer_instance

instance rankRelTotal (score : List ℚ → List ℚ → ℚ) (q : List ℚ) :
    IsTotal KnowledgeBaseEntry (rankRel score q) := by
  constructor
  intro a b
  unfold rankRel
  rcases lt_trichotomy (score q a.vector) (score q b.vector) with h | h | h
  · exact Or.inr (Or.inl h)
  · rcases Nat.le_total a.chunk_id b.chunk_id with h2 | h2
    · exact Or.inl (Or.inr ⟨h, h2⟩)
    · exact Or.inr (Or.inr ⟨h.symm, h2⟩)
  · exact Or.inl (Or.inl h)

instance rankRelTrans (score : List ℚ → List ℚ → ℚ) (q : List ℚ) :
    IsTrans KnowledgeBaseEntry (rankRel score q) := by
  constructor
  intro a b c hab hbc
  unfold rankRel at *
  rcases hab with h1 | ⟨h1, h1i⟩ <;> rcases hbc with h2 | ⟨h2, h2i⟩
  · exact Or.inl (h2.trans h1)
  · exact Or.inl (h2 ▸ h1)
  · exact Or.inl (h1 ▸ h2)
  · exact Or.inr ⟨h1.trans h2, h1i.trans h2i⟩

/-- Modelled from the spec: search filters the index by the optional
document id, fails with an empty-index error when nothing matches, and
otherwise returns the top_k entries ranked by similarity score
descending with ties broken by ascending chunk id, each paired with its
score.  Cosine similarity needs real square roots, so the score is an
abstract parameter here; the ordering contract is proved for every
score function, hence in particular for cosine similarity. -/
def search (score : List ℚ → List ℚ → ℚ) (st : Store) (q : List ℚ)
    (topK : Nat) (filt : Option String) :
    Except KBError (List (KnowledgeBaseEntry × ℚ)) :=
  let matched := st.filter (matchesFilter filt)
  if matched = [] then .error .emptyIndex
  else .ok (((matched.insertionSort (rankRel score q)).take topK).map
    (fun e => (e, score q e.vector)))

/-- Span-chain predicate from position pos: every chunk's span matches
its text length, consecutive chunks satisfy next.span_start + ov =
current.span_end (so exactly ov characters are shared), the first chunk
starts at pos and the last ends at n; an empty chain requires pos = n. -/
def spanChainFrom (ov n : Nat) : Nat → List Chunk → Prop
  | pos, [] => pos = n
  | pos, [c] => c.span_start = pos ∧ c.span_end = pos + c.text.length ∧ c.span_end = n
  | pos, c :: c2 :: rest =>
    c.span_start = pos ∧ c.span_end = pos + c.text.length ∧
    c2.span_start + ov = c.span_end ∧ spanChainFrom ov n c2.span_start (c2 :: rest)

/-- Chunks tile the interval [0, n) with exactly ov characters of
intentional overlap between consecutive chunks. -/
def spanChain (ov n : Nat) (cs : List Chunk) : Prop :=
  spanChainFrom ov n 0 cs

/-- Modelled from the spec: terminal outcome of the embedding stage,
enumerating succeeded (chunk id, vector) pairs, failed chunk ids, error
messages and the total number of retries observed. -/
structure PartialEmbeddingResult where
  succeeded : List (Nat × List ℚ)
  failed_chunk_ids : List Nat
  errors : List String
  retries : Nat
deriving DecidableEq

/-- Modelled from the spec: submits one batch to the embedding service,
retrying on failure while attempts remain; attempt is the 1-based
attempt number of the next call and the second component counts the
retries used (calls beyond the first). -/
def tryBatch (service : Nat → List Chunk → Except String (List (List ℚ)))
    (batch : List Chunk) (attempt : Nat) :
    Nat → Except String (List (List ℚ)) × Nat
  | 0 => (.error "no attempts remaining", 0)
  | remaining + 1 =>
    match service attempt batch with
    | .ok vs => (.ok vs, 0)
    | .error e =>
      if remaining = 0 then (.error e, 0)
      else
        let (r, retr) := tryBatch service batch (attempt + 1) remaining
        (r, retr + 1)

/-- Folds the per-batch outcomes into one result, continuing past
failed batches. -/
def embedGo (service : Nat → List Chunk → Except String (List (List ℚ)))
    (maxRetries : Nat) : List (List Chunk) → PartialEmbeddingResult
  | [] => ⟨[], [], [], 0⟩
  | b :: bs =>
    let (res, retr) := tryBatch service b 1 (maxRetries + 1)
    let rest := embedGo service maxRetries bs
    match res with
    | .ok vs =>
      ⟨(b.map Chunk.ordinal).zip vs ++ rest.succeeded, rest.failed_chunk_ids,
       rest.errors, retr + rest.retries⟩
    | .error e =>
      ⟨rest.succeeded, b.map Chunk.ordinal ++ rest.failed_chunk_ids,
       e :: rest.errors, retr + rest.retries⟩

/-- Modelled from the spec: the embedding generator submits chunks in
batches of batchSize, retries a failing batch up to maxRetries times,
marks a still-failing batch's chunks as failed and continues with the
remaining batches, surfacing a partial result. -/
def embed (service : Nat → List Chunk → Except String (List (List ℚ)))
    (batchSize maxRetries : Nat) (chunks : List Chunk) :
    PartialEmbeddingResult :=
  embedGo service maxRetries (chunksOf batchSize chunks)

/-- A 25-character single-page document for the fixed-size scenario. -/
def demoDoc25 : ParsedDocument :=
  ⟨"doc-25", [⟨1, List.replicate 25 'a'⟩]⟩

/-- A 3-page document with one short sentence per page, for the
page-aligned scenario. -/
def demoDoc3 : ParsedDocument :=
  ⟨"doc-3", [⟨1, ['A', '\n']⟩, ⟨2, ['B', '\n']⟩, ⟨3, ['C', '\n']⟩]⟩

/-- Configuration with max_chars 10 and no overlap, for the fixed-size
scenario. -/
def demoCfg10 : ChunkConfig :=
  ⟨10, 0, 1, 1000⟩

/-- Sixteen one-character chunks, for the embedding retry scenario. -/
def demoChunks16 : List Chunk :=
  (List.range 16).map (fun i => ⟨['x'], i, [1], 0, 1, "s"⟩)

/-- Embedding service that fails on attempts 1 and 2 and succeeds from
attempt 3 on, for the embedding retry scenario. -/
def demoService3 (attempt : Nat) (batch : List Chunk) :
    Except String (List (List ℚ)) :=
  if 3 ≤ attempt then .ok (batch.map (fun _ => [(1 : ℚ)]))
  else .error "service unavailable"

/-- Strategy value wrapping the page-aligned chunker. -/
def pageAlignedStrategy : Strategy :=
  ⟨"page_aligned", fun d cfg => pageAlignedChunks cfg d⟩

/-- Strategy value wrapping the fixed-size chunker. -/
def fixedSizeStrategy : Strategy :=
  ⟨"fixed_size", fun d cfg => fixedSizeChunks cfg d⟩

/-- Strategy value that always throws, for the comparator failure
scenario. -/
def failingStrategy : Strategy :=
  ⟨"failing", fun _ _ => .error (.strategyFailure "boom")⟩

end Pipeline

namespace ConnectorDemo

/-- An HTTP call actually issued by make_request: a GET carries only the
URL (the data argument is never transmitted), a POST carries the URL and
the JSON payload. -/
inductive IssuedCall where
  | getCall (url : String)
  | postCall (url : String) (payload : Option String)
deriving DecidableEq

/-- Upper-casing of a string character by character, as Python's
str.upper does on the ASCII method names used here. -/
def pyUpper (s : String) : String :=
  ⟨s.data.map Char.toUpper⟩

/-- Embedded from src/connector_demo.py make_request: upper-cases the
method, issues a GET without the data argument, a POST with the data as
JSON body, and raises ValueError for any other method before issuing any
request. -/
def make_request (baseUrl : String) (method : String) (endpoint : String)
    (data : Option String) : Except String IssuedCall :=
  let url := baseUrl ++ endpoint
  if pyUpper method = "GET" then .ok (.getCall url)
  else if pyUpper method = "POST" then .ok (.postCall url data)
  else .error ("Unsupported method: " ++ method)

end ConnectorDemo

namespace TestScript

/-- Name of the one machine-specific fixture document the benchmark
script can run against. -/
def fixtureName : String := "B&FRD_Jan 21.pdf"

/-- Embedded from src/test_chunking_comparison.py get_test_document:
joins the user's Downloads directory with the fixed file name, raises
FileNotFoundError when that path does not exist, and returns the path
otherwise.  The filesystem is modelled as the list of existing paths and
the home directory as a parameter. -/
def get_test_document (home : String) (fs : List String) :
    Except String String :=
  let downloads := home ++ "/Downloads"
  let test_file := downloads ++ "/" ++ fixtureName
  if fs.contains test_file then .ok test_file
  else .error ("Test file not found: " ++ test_file)

end TestScript

namespace ConnectorDemo

/-- Claim C9: make_request raises ValueError without issuing any HTTP
request exactly when the upper-cased method is neither GET nor POST;
for GET in any letter case the data argument is never transmitted (the
issued call carries no payload and the result is independent of data). -/
theorem make_request_method_contract :
    ∀ (base method endpoint : String) (data : Option String),
      ((∃ msg, make_request base method endpoint data = .error msg) ↔
        (pyUpper method ≠ "GET" ∧ pyUpper method ≠ "POST")) ∧
      (pyUpper method = "GET" →
        ∀ d2, make_request base method endpoint data =
              make_request base method endpoint d2 ∧
          make_request base method endpoint data =
            .ok (.getCall (base ++ endpoint))) := by
  intro base method endpoint data
  unfold make_request
  constructor
  · by_cases hg : pyUpper method = "GET"
    · simp [hg]
    · by_cases hp : pyUpper method = "POST"
      · simp [hg, hp]
      · simp [hg, hp]
  · intro hg d2
    simp [hg]

/-- Witness for C9: PUT is rejected while a lower-case get issues a GET
call that ignores the payload. -/
theorem make_request_method_contract_witness :
    (∃ msg, make_request "http://localhost:8000" "PUT" "/connectors" none =
      .error msg) ∧
    make_request "http://localhost:8000" "get" "/connectors" (some "d") =
      .ok (.getCall "http://localhost:8000/connectors") :=
  ⟨(make_request_method_contract "http://localhost:8000" "PUT" "/connectors"
      none).1.mpr (by decide),
   ((make_request_method_contract "http://localhost:8000" "get" "/connectors"
      (some "d")).2 (by decide) none).2⟩

end ConnectorDemo

namespace TestScript

/-- Claim C10: get_test_document fails with FileNotFoundError exactly
when the fixed fixture file is absent from the user's Downloads
directory, and otherwise returns that one fixed path, so the benchmark
can only run against this machine-specific fixture. -/
theorem get_test_document_fixture_contract :
    ∀ (home : String) (fs : List String),
      ((∃ msg, get_test_document home fs = .error msg) ↔
        ((home ++ "/Downloads") ++ "/" ++ fixtureName) ∉ fs) ∧
      (∀ p, get_test_document home fs = .ok p →
        p = (home ++ "/Downloads") ++ "/" ++ fixtureName ∧ p ∈ fs) := by
  intro home fs
  unfold get_test_document
  by_cases h : ((home ++ "/Downloads") ++ "/" ++ fixtureName) ∈ fs
  · simp [h]
  · simp [h]

/-- Witness for C10: with the fixture present the path is returned, and
with an empty filesystem the lookup fails. -/
theorem get_test_document_fixture_contract_witness :
    (∃ msg, get_test_document "/home/u" [] = .error msg) ∧
    ("/home/u/Downloads/B&FRD_Jan 21.pdf" =
      (("/home/u" ++ "/Downloads") ++ "/" ++ fixtureName) ∧
     "/home/u/Downloads/B&FRD_Jan 21.pdf" ∈
       ["/home/u/Downloads/B&FRD_Jan 21.pdf"]) :=
  ⟨(get_test_document_fixture_contract "/home/u" []).1.mpr (by decide),
   (get_test_document_fixture_contract "/home/u"
      ["/home/u/Downloads/B&FRD_Jan 21.pdf"]).2
    "/home/u/Downloads/B&FRD_Jan 21.pdf" rfl⟩

end TestScript

namespace Pipeline

theorem fixedChunksGo_text_le (m o : Nat) (offs : List (Nat × Nat × Nat)) :
    ∀ (n : Nat) (t : List Char), t.length ≤ n → ∀ (ord pos : Nat),
      ∀ c ∈ fixedChunksGo m o offs ord pos t, c.text.length ≤ m := by
  intro n
  induction n with
  | zero =>
    intro t ht ord pos c hc
    have he : t = [] := List.eq_nil_of_length_eq_zero (Nat.le_zero.mp ht)
    subst he
    rw [fixedChunksGo] at hc
    simp at hc
  | succ k ih =>
    intro t ht ord pos c hc
    rw [fixedChunksGo] at hc
    split_ifs at hc with h1 h2
    · simp at hc
    · simp at hc
      subst hc
      simpa using h2
    · simp at hc
      rcases hc with hc | hc
      · subst hc
        simp [List.length_take]
      · exact ih (t.drop (max 1 (m - o)))
          (by simp only [List.length_drop]; omega) (ord + 1)
          (pos + max 1 (m - o)) c hc

theorem fixedChunksGo_dropLast_eq (m o : Nat) (offs : List (Nat × Nat × Nat)) :
    ∀ (n : Nat) (t : List Char), t.length ≤ n → ∀ (ord pos : Nat),
      ∀ c ∈ (fixedChunksGo m o offs ord pos t).dropLast,
        c.text.length = m := by
  intro n
  induction n with
  | zero =>
    intro t ht ord pos c hc
    have he : t = [] := List.eq_nil_of_length_eq_zero (Nat.le_zero.mp ht)
    subst he
    rw [fixedChunksGo] at hc
    simp at hc
  | succ k ih =>
    intro t ht ord pos c hc
    rw [fixedChunksGo] at hc
    split_ifs at hc with h1 h2
    · simp at hc
    · simp at hc
    · cases hr : fixedChunksGo m o offs (ord + 1) (pos + max 1 (m - o))
          (t.drop (max 1 (m - o))) with
      | nil =>
        rw [hr] at hc
        simp at hc
      | cons r rs =>
        rw [hr, List.dropLast_cons_of_ne_nil (by simp)] at hc
        simp only [List.mem_cons] at hc
        rcases hc with hc | hc
        · subst hc
          simp only [List.length_take]
          omega
        · refine ih (t.drop (max 1 (m - o)))
            (by simp only [List.length_drop]; omega) (ord + 1)
            (pos + max 1 (m - o)) c ?_
          rw [hr]
          exact hc

end Pipeline

namespace Pipeline

/-- Claim C5: the fixed-size strategy fails with a configuration error
exactly when overlap_chars exceeds max_chars - 1; otherwise every chunk
is at most max_chars long and every chunk but the last is exactly
max_chars long; and a 25-character document with max_chars 10 and no
overlap yields exactly 3 chunks of lengths 10, 10 and 5. -/
theorem fixed_size_strategy_window_contract :
    (∀ (cfg : ChunkConfig) (d : ParsedDocument),
      ((∃ e, fixedSizeChunks cfg d = .error e) ↔
        cfg.max_chars ≤ cfg.overlap_chars) ∧
      (∀ cs, fixedSizeChunks cfg d = .ok cs →
        (∀ c ∈ cs, c.text.length ≤ cfg.max_chars) ∧
        (∀ c ∈ cs.dropLast, c.text.length = cfg.max_chars))) ∧
    (fixedSizeChunks demoCfg10 demoDoc25).map
      (fun cs => cs.map (fun c => c.text.length)) = .ok [10, 10, 5] := by
  constructor
  · intro cfg d
    constructor
    · unfold fixedSizeChunks
      split_ifs with h
      · simp [h]
      · simp [h]
    · intro cs hcs
      unfold fixedSizeChunks at hcs
      split_ifs at hcs with h
      simp only [Except.ok.injEq] at hcs
      subst hcs
      exact ⟨fixedChunksGo_text_le cfg.max_chars cfg.overlap_chars
          (pageOffsets 0 d.pages) (docText d).length (docText d) le_rfl 0 0,
        fixedChunksGo_dropLast_eq cfg.max_chars cfg.overlap_chars
          (pageOffsets 0 d.pages) (docText d).length (docText d) le_rfl 0 0⟩
  · simp [fixedSizeChunks, demoCfg10, demoDoc25, docText, fixedChunksGo,
      Except.map]

/-- Witness for C5: the general part applied to the 25-character
scenario document, whose run succeeds and whose first two chunks have
exactly max_chars characters. -/
theorem fixed_size_strategy_window_contract_witness :
    ∀ cs, fixedSizeChunks demoCfg10 demoDoc25 = .ok cs →
      (∀ c ∈ cs, c.text.length ≤ demoCfg10.max_chars) ∧
      (∀ c ∈ cs.dropLast, c.text.length = demoCfg10.max_chars) :=
  fun cs hcs =>
    (fixed_size_strategy_window_contract.1 demoCfg10 demoDoc25).2 cs hcs

end Pipeline

namespace Pipeline

theorem chunksOf_one {α : Type} : ∀ ps : List α, chunksOf 1 ps = ps.map (fun p => [p]) := by
  intro ps
  induction ps with
  | nil =>
    rw [chunksOf]
    simp
  | cons x xs ih =>
    rw [chunksOf]
    simp [ih]

theorem assemble_mem : ∀ (segs : List (List Char × List Nat)) (name : String)
    (ord pos : Nat) (c : Chunk), c ∈ assemble name ord pos segs →
      ∃ s ∈ segs, c.text = s.1 ∧ c.source_pages = s.2 := by
  intro segs
  induction segs with
  | nil =>
    intro name ord pos c hc
    simp [assemble] at hc
  | cons s rest ih =>
    intro name ord pos c hc
    rcases s with ⟨txt, pgs⟩
    rw [assemble] at hc
    simp only [List.mem_cons] at hc
    rcases hc with hc | hc
    · subst hc
      exact ⟨(txt, pgs), List.mem_cons_self _ _, by simp, by simp⟩
    · rcases ih name (ord + 1) (pos + txt.length) c hc with ⟨s, hs, h1, h2⟩
      exact ⟨s, List.mem_cons_of_mem _ hs, h1, h2⟩

theorem assemble_length : ∀ (segs : List (List Char × List Nat)) (name : String)
    (ord pos : Nat), (assemble name ord pos segs).length = segs.length := by
  intro segs
  induction segs with
  | nil =>
    intro name ord pos
    simp [assemble]
  | cons s rest ih =>
    intro name ord pos
    rcases s with ⟨txt, pgs⟩
    rw [assemble]
    simp [ih]

theorem pageScore_bounds : ∀ cs : List Chunk, 0 ≤ pageScore cs ∧ pageScore cs ≤ 1 := by
  intro cs
  unfold pageScore
  split_ifs with h
  · norm_num
  · have hlen : (0 : ℚ) < (cs.length : ℚ) := by
      have := Nat.pos_of_ne_zero h
      exact_mod_cast this
    constructor
    · exact div_nonneg (Nat.cast_nonneg _) (le_of_lt hlen)
    · rw [div_le_one hlen]
      exact_mod_cast List.countP_le_length _

/-- Claim C6: page_preservation_score always lies in [0, 1], and the
page-aligned strategy with pages_per_chunk 1 on a document with at
least one page yields chunks whose source_pages all have size exactly 1
and a page_preservation_score of exactly 1. -/
theorem page_preservation_score_contract :
    (∀ cs : List Chunk, 0 ≤ pageScore cs ∧ pageScore cs ≤ 1) ∧
    (∀ (cfg : ChunkConfig) (d : ParsedDocument), cfg.pages_per_chunk = 1 →
      d.pages ≠ [] → ∀ cs, pageAlignedChunks cfg d = .ok cs →
        (∀ c ∈ cs, c.source_pages.length = 1) ∧ pageScore cs = 1) := by
  refine ⟨pageScore_bounds, ?_⟩
  intro cfg d hppc hne cs hcs
  unfold pageAlignedChunks at hcs
  simp only [Except.ok.injEq] at hcs
  subst hcs
  rw [hppc, chunksOf_one] at *
  have hall : ∀ c ∈ assemble "page_aligned" 0 0
      ((d.pages.map (fun p => [p])).map
        (fun g => ((g.map Page.text).flatten, g.map Page.page_number))),
      c.source_pages.length = 1 := by
    intro c hc
    rcases assemble_mem _ _ _ _ c hc with ⟨s, hs, _, h2⟩
    simp only [List.mem_map] at hs
    rcases hs with ⟨g, hg, hgs⟩
    rcases hg with ⟨p, _, hp⟩
    subst hp
    rw [← hgs] at h2
    simp [h2]
  refine ⟨hall, ?_⟩
  unfold pageScore
  have hlen : (assemble "page_aligned" 0 0
      ((d.pages.map (fun p => [p])).map
        (fun g => ((g.map Page.text).flatten, g.map Page.page_number)))).length =
      d.pages.length := by
    rw [assemble_length]
    simp
  have hnz : d.pages.length ≠ 0 := fun hz => hne (List.eq_nil_of_length_eq_zero hz)
  rw [hlen]
  split_ifs with h
  · exact absurd h hnz
  · rw [List.countP_eq_length.mpr ?_]
    · rw [hlen, div_self (by exact_mod_cast hnz)]
    · intro c hc
      simpa using hall c hc

end Pipeline

namespace Pipeline

/-- Witness for C6: the 3-page demo document with pages_per_chunk 1
yields chunks with singleton source_pages and a perfect score. -/
theorem page_preservation_score_contract_witness :
    (0 ≤ pageScore [] ∧ pageScore [] ≤ 1) ∧
    ∃ cs, pageAlignedChunks ⟨1000, 0, 1, 1000⟩ demoDoc3 = .ok cs ∧
      (∀ c ∈ cs, c.source_pages.length = 1) ∧ pageScore cs = 1 :=
  ⟨page_preservation_score_contract.1 [],
   ⟨_, rfl, page_preservation_score_contract.2 ⟨1000, 0, 1, 1000⟩ demoDoc3
      rfl (by decide) _ rfl⟩⟩

end Pipeline

namespace Pipeline

theorem entriesFor_removeDoc_self (docId : String) :
    ∀ st : Store, entriesFor docId (removeDoc docId st) = [] := by
  intro st
  induction st with
  | nil => rfl
  | cons e rest ih =>
    rw [removeDoc]
    split_ifs with h
    · exact ih
    · unfold entriesFor at *
      rw [List.filter_cons]
      simp only [h]
      simpa using ih

theorem entriesFor_removeDoc_other (docId other : String) (hne : other ≠ docId) :
    ∀ st : Store, entriesFor other (removeDoc docId st) = entriesFor other st := by
  intro st
  induction st with
  | nil => rfl
  | cons e rest ih =>
    rw [removeDoc]
    split_ifs with h
    · unfold entriesFor at *
      rw [List.filter_cons]
      have : ¬ e.document_id = other := by
        rw [h]
        exact fun hh => hne hh.symm
      simp only [this]
      simpa using ih
    · unfold entriesFor at *
      rw [List.filter_cons, List.filter_cons]
      by_cases h2 : e.document_id = other
      · simp only [h2]
        simp [ih]
      · simp only [h2]
        simpa using ih

theorem entriesFor_mkEntries_self (docId : String) :
    ∀ (cs : List Chunk) (vs : List (List ℚ)),
      entriesFor docId (mkEntries docId cs vs) = mkEntries docId cs vs := by
  intro cs
  induction cs with
  | nil =>
    intro vs
    cases vs with
    | nil => rfl
    | cons v vrest => rfl
  | cons c rest ih =>
    intro vs
    cases vs with
    | nil => rfl
    | cons v vrest =>
      rw [mkEntries]
      unfold entriesFor at *
      rw [List.filter_cons]
      simp only [decide_True]
      simp [ih]

theorem entriesFor_mkEntries_other (docId other : String) (hne : other ≠ docId) :
    ∀ (cs : List Chunk) (vs : List (List ℚ)),
      entriesFor other (mkEntries docId cs vs) = [] := by
  intro cs
  induction cs with
  | nil =>
    intro vs
    cases vs with
    | nil => rfl
    | cons v vrest => rfl
  | cons c rest ih =>
    intro vs
    cases vs with
    | nil => rfl
    | cons v vrest =>
      rw [mkEntries]
      unfold entriesFor at *
      rw [List.filter_cons]
      have : ¬ ((⟨docId, c.ordinal, c.text, v⟩ : KnowledgeBaseEntry).document_id = other) :=
        fun hh => hne (by simpa using hh.symm)
      simp only [this]
      simpa using ih vrest

/-- Claim C2: ingest is atomic per document: on failure the store is
untouched; on success the entries for document_id are exactly the newly
ingested set and entries of other documents are unchanged; and the final
entries for document_id after a successful ingest depend only on the
ingested chunks and embeddings, never on the prior store. -/
theorem ingest_atomic_replace :
    ∀ (st : Store) (docId : String) (chunks : List Chunk)
      (embs : List (List ℚ)),
      (∀ err, (ingest st docId chunks embs).2 = .error err →
        (ingest st docId chunks embs).1 = st) ∧
      (∀ res, (ingest st docId chunks embs).2 = .ok res →
        entriesFor docId (ingest st docId chunks embs).1 =
          mkEntries docId chunks embs ∧
        (∀ other, other ≠ docId →
          entriesFor other (ingest st docId chunks embs).1 =
            entriesFor other st) ∧
        res = ⟨docId, chunks.length, embs.length, 0⟩) ∧
      (∀ st2 res, (ingest st docId chunks embs).2 = .ok res →
        entriesFor docId (ingest st docId chunks embs).1 =
          entriesFor docId (ingest st2 docId chunks embs).1) := by
  intro st docId chunks embs
  unfold ingest
  by_cases h1 : chunks.length ≠ embs.length
  · simp only [if_pos h1]
    exact ⟨fun err _ => by simp, fun res hres => absurd hres (by simp),
      fun st2 res hres => absurd hres (by simp)⟩
  · by_cases h2 : dimsConsistent embs
    · simp only [if_neg h1, if_neg (not_not_intro h2)]
      have hmain : ∀ s : Store,
          entriesFor docId (removeDoc docId s ++ mkEntries docId chunks embs) =
            mkEntries docId chunks embs := by
        intro s
        unfold entriesFor
        rw [List.filter_append]
        have ha := entriesFor_removeDoc_self docId s
        have hb := entriesFor_mkEntries_self docId chunks embs
        unfold entriesFor at ha hb
        rw [ha, hb]
        simp
      refine ⟨fun err herr => absurd herr (by simp), fun res hres => ?_, ?_⟩
      · refine ⟨hmain st, ?_, ?_⟩
        · intro other hother
          show entriesFor other (removeDoc docId st ++ mkEntries docId chunks embs) =
            entriesFor other st
          unfold entriesFor
          rw [List.filter_append]
          have ha := entriesFor_removeDoc_other docId other hother st
          have hb := entriesFor_mkEntries_other docId other hother chunks embs
          unfold entriesFor at ha hb
          rw [ha, hb]
          simp
        · have : Except.ok (ε := KBError)
              (⟨docId, chunks.length, embs.length, 0⟩ : IngestResult) = .ok res := hres
          simpa using this.symm
      · intro st2 res hres
        show entriesFor docId (removeDoc docId st ++ mkEntries docId chunks embs) =
          entriesFor docId (removeDoc docId st2 ++ mkEntries docId chunks embs)
        rw [hmain st, hmain st2]
    · simp only [if_neg h1, if_pos h2]
      exact ⟨fun err _ => by simp, fun res hres => absurd hres (by simp),
        fun st2 res hres => absurd hres (by simp)⟩

end Pipeline

namespace Pipeline

/-- Witness for C2: a successful ingest into a store holding another
document replaces the target document's entries and leaves the other
document alone. -/
theorem ingest_atomic_replace_witness :
    entriesFor "a" (ingest [⟨"b", 0, ['p'], [3]⟩] "a"
        [⟨['x'], 5, [1], 0, 1, "s"⟩] [[1]]).1 =
      mkEntries "a" [⟨['x'], 5, [1], 0, 1, "s"⟩] [[1]] ∧
    (∀ other, other ≠ "a" →
      entriesFor other (ingest [⟨"b", 0, ['p'], [3]⟩] "a"
          [⟨['x'], 5, [1], 0, 1, "s"⟩] [[1]]).1 =
        entriesFor other [⟨"b", 0, ['p'], [3]⟩]) ∧
    (⟨"a", 1, 1, 0⟩ : IngestResult) = ⟨"a", 1, 1, 0⟩ :=
  (ingest_atomic_replace [⟨"b", 0, ['p'], [3]⟩] "a"
      [⟨['x'], 5, [1], 0, 1, "s"⟩] [[1]]).2.1 ⟨"a", 1, 1, 0⟩ rfl

end Pipeline

namespace Pipeline

/-- Claim C7: for every store, query, top_k and optional document
filter, search fails with the empty-index error exactly when no entry
matches the filter, and otherwise returns exactly
min(top_k, matching entries) results sorted by similarity score
descending with ties broken by ascending chunk id, each entry paired
with its own score and drawn from the filtered index. -/
theorem search_contract :
    ∀ (score : List ℚ → List ℚ → ℚ) (st : Store) (q : List ℚ) (topK : Nat)
      (filt : Option String),
      ((search score st q topK filt = .error .emptyIndex) ↔
        st.filter (matchesFilter filt) = []) ∧
      (∀ res, search score st q topK filt = .ok res →
        res.length = min topK (st.filter (matchesFilter filt)).length ∧
        res.Pairwise (fun p1 p2 => rankRel score q p1.1 p2.1) ∧
        ∀ p ∈ res, p.2 = score q p.1.vector ∧
          matchesFilter filt p.1 = true) := by
  intro score st q topK filt
  unfold search
  simp only []
  split_ifs with h
  · refine ⟨⟨fun _ => h, fun _ => rfl⟩, ?_⟩
    intro res hres
    simp at hres
  · refine ⟨⟨fun hcon => absurd hcon (by simp), fun hcon => absurd hcon h⟩, ?_⟩
    intro res hres
    simp only [Except.ok.injEq] at hres
    subst hres
    refine ⟨?_, ?_, ?_⟩
    · rw [List.length_map, List.length_take, List.length_insertionSort]
    · rw [List.pairwise_map]
      exact ((List.sorted_insertionSort (rankRel score q)
        (st.filter (matchesFilter filt))).sublist (List.take_sublist _ _))
    · intro p hp
      simp only [List.mem_map] at hp
      rcases hp with ⟨e, he, hpe⟩
      subst hpe
      refine ⟨rfl, ?_⟩
      have hmem : e ∈ (st.filter (matchesFilter filt)).insertionSort
          (rankRel score q) :=
        (List.take_sublist _ _).mem he
      rw [List.mem_insertionSort] at hmem
      exact (List.mem_filter.mp hmem).2

end Pipeline

namespace Pipeline

set_option maxHeartbeats 2000000 in
/-- Witness for C7: a two-entry store queried with a dot-product score
returns both entries, sorted, scored and drawn from the index. -/
theorem search_contract_witness :
    ∃ res, search (fun q v => ((q.zip v).map (fun p => p.1 * p.2)).sum)
        [⟨"a", 1, ['x'], [1]⟩, ⟨"a", 2, ['y'], [2]⟩] [1] 5 none = .ok res ∧
      (res.length = min 5 (([⟨"a", 1, ['x'], [1]⟩, ⟨"a", 2, ['y'], [2]⟩] : Store).filter
          (matchesFilter none)).length ∧
        res.Pairwise (fun p1 p2 =>
          rankRel (fun q v => ((q.zip v).map (fun p => p.1 * p.2)).sum) [1] p1.1 p2.1) ∧
        ∀ p ∈ res, p.2 = ((([1] : List ℚ).zip p.1.vector).map (fun p => p.1 * p.2)).sum ∧
          matchesFilter none p.1 = true) :=
  ⟨_, rfl, (search_contract (fun q v => ((q.zip v).map (fun p => p.1 * p.2)).sum)
      [⟨"a", 1, ['x'], [1]⟩, ⟨"a", 2, ['y'], [2]⟩] [1] 5 none).2 _ rfl⟩

end Pipeline

namespace Pipeline

theorem pickBest_none_iff (t : ℚ) :
    ∀ l : List StrategyOutcome, pickBest t l = none ↔ l = [] := by
  intro l
  cases l with
  | nil => simp [pickBest]
  | cons o rest =>
    rw [pickBest]
    cases h : pickBest t rest with
    | none => simp
    | some b =>
      dsimp only
      split_ifs <;> simp

theorem pickBest_min (t : ℚ) :
    ∀ (l : List StrategyOutcome) (b : StrategyOutcome), pickBest t l = some b →
      b ∈ l ∧ ∀ p ∈ l, rkey t b ≤ rkey t p := by
  intro l
  induction l with
  | nil =>
    intro b hb
    simp [pickBest] at hb
  | cons o rest ih =>
    intro b hb
    rw [pickBest] at hb
    cases h : pickBest t rest with
    | none =>
      rw [h] at hb
      simp only [Option.some.injEq] at hb
      subst hb
      have hrest : rest = [] := (pickBest_none_iff t rest).mp h
      subst hrest
      exact ⟨List.mem_singleton_self _, by
        intro p hp
        simp at hp
        subst hp
        exact le_refl _⟩
    | some b0 =>
      rw [h] at hb
      rcases ih b0 h with ⟨hmem, hmin⟩
      dsimp only at hb
      split_ifs at hb with hlt
      · simp only [Option.some.injEq] at hb
        subst hb
        refine ⟨List.mem_cons_self _ _, ?_⟩
        intro p hp
        rcases List.mem_cons.mp hp with hp | hp
        · subst hp
          exact le_refl _
        · exact le_of_lt (lt_of_lt_of_le hlt (hmin p hp))
      · simp only [Option.some.injEq] at hb
        subst hb
        refine ⟨List.mem_cons_of_mem _ hmem, ?_⟩
        intro p hp
        rcases List.mem_cons.mp hp with hp | hp
        · subst hp
          exact le_of_not_lt hlt
        · exact hmin p hp

/-- Claim C1: the comparator's recommendation is deterministic and is
computed by discarding failed or zero-chunk strategies and minimising
the ranking key (page_preservation_score descending, then absolute
distance of avg_chunk_chars from the target, then lexicographic
strategy name); repeated calls on the same document and configuration
return the identical report. -/
theorem compare_deterministic_recommendation :
    ∀ (d : ParsedDocument) (cfg : ChunkConfig) (ss : List Strategy),
      compare d cfg ss = compare d cfg ss ∧
      ((compare d cfg ss).recommendation = none ↔
        eligible (compare d cfg ss).results = []) ∧
      (∀ r, (compare d cfg ss).recommendation = some r →
        ∃ o ∈ eligible (compare d cfg ss).results,
          o.name = r.strategy_name ∧ r.reason = mkReason o ∧
          ∀ p ∈ eligible (compare d cfg ss).results,
            rkey cfg.target_chunk_size o ≤ rkey cfg.target_chunk_size p) := by
  intro d cfg ss
  refine ⟨rfl, ?_, ?_⟩
  · show (pickBest cfg.target_chunk_size
        (eligible (runStrategies d cfg ss).1)).map _ = none ↔ _
    rw [Option.map_eq_none']
    exact pickBest_none_iff _ _
  · intro r hr
    replace hr : (pickBest cfg.target_chunk_size
        (eligible (runStrategies d cfg ss).1)).map
          (fun o => (⟨o.name, mkReason o⟩ : Recommendation)) = some r := hr
    rw [Option.map_eq_some'] at hr
    rcases hr with ⟨o, ho, hor⟩
    rcases pickBest_min cfg.target_chunk_size _ o ho with ⟨hmem, hmin⟩
    exact ⟨o, hmem, by rw [← hor], by rw [← hor], hmin⟩

end Pipeline

namespace Pipeline

/-- Witness for C1: a single always-succeeding strategy is recommended
and is minimal under the ranking key among the eligible outcomes. -/
theorem compare_deterministic_recommendation_witness :
    ∃ o ∈ eligible (compare demoDoc3 ⟨10, 0, 1, 1000⟩
        [⟨"const", fun _ _ => .ok [⟨['x'], 0, [1], 0, 1, "const"⟩]⟩]).results,
      o.name = "const" ∧
      mkReason ⟨"const", [⟨['x'], 0, [1], 0, 1, "const"⟩],
        computeMetrics [⟨['x'], 0, [1], 0, 1, "const"⟩]⟩ = mkReason o ∧
      ∀ p ∈ eligible (compare demoDoc3 ⟨10, 0, 1, 1000⟩
          [⟨"const", fun _ _ => .ok [⟨['x'], 0, [1], 0, 1, "const"⟩]⟩]).results,
        rkey 1000 o ≤ rkey 1000 p :=
  (compare_deterministic_recommendation demoDoc3 ⟨10, 0, 1, 1000⟩
      [⟨"const", fun _ _ => .ok [⟨['x'], 0, [1], 0, 1, "const"⟩]⟩]).2.2
    ⟨"const", mkReason ⟨"const", [⟨['x'], 0, [1], 0, 1, "const"⟩],
      computeMetrics [⟨['x'], 0, [1], 0, 1, "const"⟩]⟩⟩ rfl

end Pipeline

namespace Pipeline

theorem runStrategies_eq (d : ParsedDocument) (cfg : ChunkConfig) :
    ∀ ss : List Strategy, runStrategies d cfg ss =
      (ss.filterMap (fun s => match s.run d cfg with
          | .ok cs => some ⟨s.name, cs, computeMetrics cs⟩
          | .error _ => none),
       ss.filterMap (fun s => match s.run d cfg with
          | .ok _ => none
          | .error e => some (s.name, e.message))) := by
  intro ss
  induction ss with
  | nil => rfl
  | cons s rest ih =>
    rw [runStrategies, ih]
    cases hr : s.run d cfg with
    | ok cs => simp [List.filterMap_cons, hr]
    | error e => simp [List.filterMap_cons, hr]

/-- Claim C4: in a comparison, each failing strategy is recorded with
its error in failed_strategies, the succeeding strategies all appear in
results with their chunks, and the recommendation is drawn only from the
succeeding strategies that produced at least one chunk; a failure never
aborts the rest. -/
theorem compare_isolates_failures :
    ∀ (d : ParsedDocument) (cfg : ChunkConfig) (ss : List Strategy),
      (compare d cfg ss).failed_strategies =
        ss.filterMap (fun s => match s.run d cfg with
          | .ok _ => none
          | .error e => some (s.name, e.message)) ∧
      (compare d cfg ss).results =
        ss.filterMap (fun s => match s.run d cfg with
          | .ok cs => some ⟨s.name, cs, computeMetrics cs⟩
          | .error _ => none) ∧
      (∀ s ∈ ss, ∀ e, s.run d cfg = .error e →
        (s.name, e.message) ∈ (compare d cfg ss).failed_strategies) ∧
      (∀ s ∈ ss, ∀ cs, s.run d cfg = .ok cs →
        (⟨s.name, cs, computeMetrics cs⟩ : StrategyOutcome) ∈
          (compare d cfg ss).results) ∧
      (∀ r, (compare d cfg ss).recommendation = some r →
        ∃ o ∈ (compare d cfg ss).results,
          o.metrics.chunk_count ≠ 0 ∧ o.name = r.strategy_name) := by
  intro d cfg ss
  have hfail : (compare d cfg ss).failed_strategies =
      ss.filterMap (fun s => match s.run d cfg with
        | .ok _ => none
        | .error e => some (s.name, e.message)) := by
    show (runStrategies d cfg ss).2 = _
    rw [runStrategies_eq]
  have hres : (compare d cfg ss).results =
      ss.filterMap (fun s => match s.run d cfg with
        | .ok cs => some ⟨s.name, cs, computeMetrics cs⟩
        | .error _ => none) := by
    show (runStrategies d cfg ss).1 = _
    rw [runStrategies_eq]
  refine ⟨hfail, hres, ?_, ?_, ?_⟩
  · intro s hs e he
    rw [hfail]
    rw [List.mem_filterMap]
    exact ⟨s, hs, by rw [he]⟩
  · intro s hs cs hcs
    rw [hres]
    rw [List.mem_filterMap]
    exact ⟨s, hs, by rw [hcs]⟩
  · intro r hr
    replace hr : (pickBest cfg.target_chunk_size
        (eligible (runStrategies d cfg ss).1)).map
          (fun o => (⟨o.name, mkReason o⟩ : Recommendation)) = some r := hr
    rw [Option.map_eq_some'] at hr
    rcases hr with ⟨o, ho, hor⟩
    rcases pickBest_min cfg.target_chunk_size _ o ho with ⟨hmem, _⟩
    unfold eligible at hmem
    rw [List.mem_filter] at hmem
    exact ⟨o, hmem.1, by simpa using hmem.2, by rw [← hor]⟩

/-- Witness for C4: one throwing strategy and one succeeding strategy
give a report whose failed list is exactly the throwing one, whose
results hold the succeeding one, and whose recommendation is the
succeeding one. -/
theorem compare_isolates_failures_witness :
    (("failing", "boom") ∈ (compare demoDoc3 ⟨10, 0, 1, 1000⟩
        [failingStrategy,
         ⟨"const", fun _ _ => .ok [⟨['x'], 0, [1], 0, 1, "const"⟩]⟩]).failed_strategies) ∧
    ((⟨"const", [⟨['x'], 0, [1], 0, 1, "const"⟩],
        computeMetrics [⟨['x'], 0, [1], 0, 1, "const"⟩]⟩ : StrategyOutcome) ∈
      (compare demoDoc3 ⟨10, 0, 1, 1000⟩
        [failingStrategy,
         ⟨"const", fun _ _ => .ok [⟨['x'], 0, [1], 0, 1, "const"⟩]⟩]).results) ∧
    (∃ o ∈ (compare demoDoc3 ⟨10, 0, 1, 1000⟩
        [failingStrategy,
         ⟨"const", fun _ _ => .ok [⟨['x'], 0, [1], 0, 1, "const"⟩]⟩]).results,
      o.metrics.chunk_count ≠ 0 ∧ o.name = "const") :=
  ⟨(compare_isolates_failures demoDoc3 ⟨10, 0, 1, 1000⟩
      [failingStrategy,
       ⟨"const", fun _ _ => .ok [⟨['x'], 0, [1], 0, 1, "const"⟩]⟩]).2.2.1
     failingStrategy (by simp) (.strategyFailure "boom") rfl,
   (compare_isolates_failures demoDoc3 ⟨10, 0, 1, 1000⟩
      [failingStrategy,
       ⟨"const", fun _ _ => .ok [⟨['x'], 0, [1], 0, 1, "const"⟩]⟩]).2.2.2.1
     ⟨"const", fun _ _ => .ok [⟨['x'], 0, [1], 0, 1, "const"⟩]⟩ (by simp)
     [⟨['x'], 0, [1], 0, 1, "const"⟩] rfl,
   (compare_isolates_failures demoDoc3 ⟨10, 0, 1, 1000⟩
      [failingStrategy,
       ⟨"const", fun _ _ => .ok [⟨['x'], 0, [1], 0, 1, "const"⟩]⟩]).2.2.2.2
     ⟨"const", mkReason ⟨"const", [⟨['x'], 0, [1], 0, 1, "const"⟩],
       computeMetrics [⟨['x'], 0, [1], 0, 1, "const"⟩]⟩⟩ rfl⟩

end Pipeline

namespace Pipeline

theorem tryBatch_first_success
    (service : Nat → List Chunk → Except String (List (List ℚ)))
    (batch : List Chunk) :
    ∀ (rem a k : Nat) (vs : List (List ℚ)), a ≤ k → k < a + rem →
      (∀ x, a ≤ x → x < k → ∃ e, service x batch = .error e) →
      service k batch = .ok vs →
      tryBatch service batch a rem = (.ok vs, k - a) := by
  intro rem
  induction rem with
  | zero =>
    intro a k vs hak hk hfail hok
    omega
  | succ r ih =>
    intro a k vs hak hk hfail hok
    by_cases heq : a = k
    · subst heq
      rw [tryBatch, hok]
      simp
    · have halt : a < k := lt_of_le_of_ne hak heq
      rcases hfail a le_rfl halt with ⟨e, he⟩
      rw [tryBatch, he]
      dsimp only
      have hr0 : r ≠ 0 := by omega
      rw [if_neg hr0]
      have hrec := ih (a + 1) k vs (by omega) (by omega)
        (fun x hx1 hx2 => hfail x (by omega) hx2) hok
      rw [hrec]
      have : k - (a + 1) + 1 = k - a := by omega
      simp [this]

theorem tryBatch_ok_from_service
    (service : Nat → List Chunk → Except String (List (List ℚ)))
    (batch : List Chunk) :
    ∀ (rem a : Nat) (vs : List (List ℚ)),
      (tryBatch service batch a rem).1 = .ok vs →
      ∃ k, service k batch = .ok vs := by
  intro rem
  induction rem with
  | zero =>
    intro a vs h
    rw [tryBatch] at h
    simp at h
  | succ r ih =>
    intro a vs h
    rw [tryBatch] at h
    cases hsv : service a batch with
    | ok vs0 =>
      rw [hsv] at h
      simp at h
      exact ⟨a, by rw [hsv, h]⟩
    | error e =>
      rw [hsv] at h
      dsimp only at h
      by_cases hr0 : r = 0
      · rw [if_pos hr0] at h
        simp at h
      · rw [if_neg hr0] at h
        rcases hrec : tryBatch service batch (a + 1) r with ⟨rr, retr⟩
        rw [hrec] at h
        dsimp only at h
        refine ih (a + 1) vs ?_
        rw [hrec]
        exact h

theorem zip_mem_of_length_eq {β : Type} :
    ∀ (l : List Nat) (vs : List β), l.length = vs.length →
      ∀ x ∈ l, ∃ v, (x, v) ∈ l.zip vs := by
  intro l
  induction l with
  | nil =>
    intro vs _ x hx
    simp at hx
  | cons y ys ih =>
    intro vs hlen x hx
    cases vs with
    | nil => simp at hlen
    | cons v vrest =>
      rcases List.mem_cons.mp hx with hx | hx
      · exact ⟨v, by rw [hx]; exact List.mem_cons_self _ _⟩
      · rcases ih vrest (by simpa using hlen) x hx with ⟨w, hw⟩
        exact ⟨w, List.mem_cons_of_mem _ hw⟩

theorem embedGo_batch_outcome
    (service : Nat → List Chunk → Except String (List (List ℚ)))
    (mr : Nat)
    (hlen : ∀ a b vs, service a b = .ok vs → vs.length = b.length) :
    ∀ (bs : List (List Chunk)), ∀ b ∈ bs,
      (∀ vs, (tryBatch service b 1 (mr + 1)).1 = .ok vs →
        ∀ c ∈ b, ∃ v, (c.ordinal, v) ∈ (embedGo service mr bs).succeeded) ∧
      (∀ e, (tryBatch service b 1 (mr + 1)).1 = .error e →
        ∀ c ∈ b, c.ordinal ∈ (embedGo service mr bs).failed_chunk_ids) := by
  intro bs
  induction bs with
  | nil =>
    intro b hb
    simp at hb
  | cons b0 rest ih =>
    intro b hb
    rcases List.mem_cons.mp hb with hb | hb
    · subst hb
      constructor
      · intro vs hvs c hc
        have hvlen : vs.length = b.length := by
          rcases tryBatch_ok_from_service service b (mr + 1) 1 vs hvs with ⟨k, hk⟩
          exact hlen k b vs hk
        rw [embedGo]
        rcases htb : tryBatch service b 1 (mr + 1) with ⟨res, retr⟩
        rw [htb] at hvs
        simp only at hvs
        subst hvs
        dsimp only
        have hmlen : (b.map Chunk.ordinal).length = vs.length := by
          rw [List.length_map, hvlen]
        rcases zip_mem_of_length_eq (b.map Chunk.ordinal) vs
            (by rw [List.length_map, hvlen]) c.ordinal
            (List.mem_map_of_mem _ hc) with ⟨v, hv⟩
        exact ⟨v, List.mem_append_left _ hv⟩
      · intro e he c hc
        rw [embedGo]
        rcases htb : tryBatch service b 1 (mr + 1) with ⟨res, retr⟩
        rw [htb] at he
        simp only at he
        subst he
        dsimp only
        exact List.mem_append_left _ (List.mem_map_of_mem _ hc)
    · rcases ih b hb with ⟨hok, herr⟩
      constructor
      · intro vs hvs c hc
        rcases hok vs hvs c hc with ⟨v, hv⟩
        rw [embedGo]
        rcases htb : tryBatch service b0 1 (mr + 1) with ⟨res, retr⟩
        dsimp only
        cases res with
        | ok vs0 => exact ⟨v, List.mem_append_right _ hv⟩
        | error e0 => exact ⟨v, hv⟩
      · intro e he c hc
        have hmem := herr e he c hc
        rw [embedGo]
        rcases htb : tryBatch service b0 1 (mr + 1) with ⟨res, retr⟩
        dsimp only
        cases res with
        | ok vs0 => exact hmem
        | error e0 => exact List.mem_append_right _ hmem

end Pipeline

namespace Pipeline

theorem chunksOf_singleton {α : Type} (k : Nat) (l : List α) (hne : l ≠ [])
    (hlen : l.length ≤ max 1 k) : chunksOf k l = [l] := by
  cases l with
  | nil => exact absurd rfl hne
  | cons x xs =>
    rw [chunksOf]
    rw [List.take_of_length_le hlen, List.drop_eq_nil_of_le hlen]
    rw [chunksOf]

/-- Claim C8: a failing batch is retried while attempts remain, so a
batch whose service succeeds at attempt k within the budget succeeds
with exactly k - 1 retries observed; a batch that exhausts all attempts
has its chunks marked failed while the remaining batches continue (every
batch's chunks land in succeeded or in failed_chunk_ids); and the
16-chunk scenario whose service fails attempts 1 and 2 and succeeds at
attempt 3 yields all 16 embeddings, no failed chunks and 2 retries. -/
theorem embed_retry_contract :
    (∀ (service : Nat → List Chunk → Except String (List (List ℚ)))
       (batch : List Chunk) (mr k : Nat) (vs : List (List ℚ)),
       1 ≤ k → k ≤ mr + 1 →
       (∀ x, 1 ≤ x → x < k → ∃ e, service x batch = .error e) →
       service k batch = .ok vs →
       tryBatch service batch 1 (mr + 1) = (.ok vs, k - 1)) ∧
    (∀ (service : Nat → List Chunk → Except String (List (List ℚ)))
       (batchSize mr : Nat) (chunks : List Chunk),
       (∀ a b vs, service a b = .ok vs → vs.length = b.length) →
       ∀ b ∈ chunksOf batchSize chunks,
         (∀ vs, (tryBatch service b 1 (mr + 1)).1 = .ok vs →
           ∀ c ∈ b, ∃ v, (c.ordinal, v) ∈
             (embed service batchSize mr chunks).succeeded) ∧
         (∀ e, (tryBatch service b 1 (mr + 1)).1 = .error e →
           ∀ c ∈ b, c.ordinal ∈
             (embed service batchSize mr chunks).failed_chunk_ids)) ∧
    ((embed demoService3 16 3 demoChunks16).succeeded.length = 16 ∧
     (embed demoService3 16 3 demoChunks16).failed_chunk_ids = [] ∧
     (embed demoService3 16 3 demoChunks16).retries = 2) := by
  refine ⟨?_, ?_, ?_⟩
  · intro service batch mr k vs h1 h2 hfail hok
    exact tryBatch_first_success service batch (mr + 1) 1 k vs h1 (by omega)
      hfail hok
  · intro service batchSize mr chunks hlen b hb
    exact embedGo_batch_outcome service mr hlen (chunksOf batchSize chunks) b hb
  · have hch : chunksOf 16 demoChunks16 = [demoChunks16] :=
      chunksOf_singleton 16 demoChunks16 (by decide) (by decide)
    unfold embed
    rw [hch]
    refine ⟨by decide, by decide, by decide⟩

end Pipeline

namespace Pipeline

/-- Witness for C8: the retry property applied to the scenario service,
which fails attempts 1 and 2 and succeeds at attempt 3, giving exactly
two retries. -/
theorem embed_retry_contract_witness :
    tryBatch demoService3 demoChunks16 1 (3 + 1) =
      (.ok (demoChunks16.map (fun _ => [(1 : ℚ)])), 3 - 1) :=
  embed_retry_contract.1 demoService3 demoChunks16 3 3
    (demoChunks16.map (fun _ => [(1 : ℚ)])) (by decide) (by decide)
    (fun x hx1 hx2 => ⟨"service unavailable", by
      unfold demoService3
      rw [if_neg (by omega)]⟩)
    rfl

end Pipeline

namespace Pipeline

theorem spanChainFrom_head_start (ov n pos : Nat) (c : Chunk) (l : List Chunk) :
    spanChainFrom ov n pos (c :: l) → c.span_start = pos := by
  cases l with
  | nil => exact fun h => h.1
  | cons c2 rest => exact fun h => h.1

theorem spanChainFrom_covers (ov n : Nat) :
    ∀ (cs : List Chunk) (pos : Nat), spanChainFrom ov n pos cs →
      ∀ x, pos ≤ x → x < n → ∃ c ∈ cs, c.span_start ≤ x ∧ x < c.span_end := by
  intro cs
  induction cs with
  | nil =>
    intro pos hch x hx1 hx2
    rw [spanChainFrom] at hch
    omega
  | cons c rest ih =>
    intro pos hch x hx1 hx2
    cases rest with
    | nil =>
      rcases hch with ⟨h1, h2, h3⟩
      exact ⟨c, List.mem_cons_self _ _, by omega, by omega⟩
    | cons c2 rest2 =>
      rcases hch with ⟨h1, h2, h3, h4⟩
      by_cases hx : x < c.span_end
      · exact ⟨c, List.mem_cons_self _ _, by omega, hx⟩
      · have hx2s : c2.span_start ≤ x := by omega
        rcases ih c2.span_start h4 x hx2s hx2 with ⟨c3, hc3, hs, he⟩
        exact ⟨c3, List.mem_cons_of_mem _ hc3, hs, he⟩

theorem assemble_spanChain (name : String) :
    ∀ (segs : List (List Char × List Nat)) (ord pos : Nat),
      spanChainFrom 0 (pos + (segs.map (fun s => s.1.length)).sum) pos
        (assemble name ord pos segs) := by
  intro segs
  induction segs with
  | nil =>
    intro ord pos
    rw [assemble]
    rw [spanChainFrom]
    simp
  | cons s rest ih =>
    intro ord pos
    rcases s with ⟨txt, pgs⟩
    rw [assemble]
    cases rest with
    | nil =>
      rw [assemble]
      rw [spanChainFrom]
      refine ⟨rfl, rfl, ?_⟩
      simp
    | cons s2 rest2 =>
      rcases s2 with ⟨txt2, pgs2⟩
      rw [assemble]
      have ihx := ih (ord + 1) (pos + txt.length)
      rw [assemble] at ihx
      rw [spanChainFrom]
      refine ⟨rfl, rfl, by simp, ?_⟩
      have harith : pos + txt.length +
          ((((txt2, pgs2) :: rest2).map (fun s => s.1.length)).sum) =
          pos + ((((txt, pgs) :: (txt2, pgs2) :: rest2).map
            (fun s => s.1.length)).sum) := by
        simp
        omega
      rw [← harith]
      exact ihx

end Pipeline

namespace Pipeline

theorem fixedChunksGo_spanChain (m o : Nat) (ho : o < m)
    (offs : List (Nat × Nat × Nat)) :
    ∀ (n : Nat) (t : List Char), t.length ≤ n → ∀ (ord pos : Nat),
      spanChainFrom o (pos + t.length) pos (fixedChunksGo m o offs ord pos t) := by
  intro n
  induction n with
  | zero =>
    intro t ht ord pos
    have he : t = [] := List.eq_nil_of_length_eq_zero (Nat.le_zero.mp ht)
    subst he
    rw [fixedChunksGo]
    simp [spanChainFrom]
  | succ k ih =>
    intro t ht ord pos
    rw [fixedChunksGo]
    split_ifs with h1 h2
    · subst h1
      simp [spanChainFrom]
    · rw [spanChainFrom]
      exact ⟨rfl, rfl, rfl⟩
    · have hstep : max 1 (m - o) = m - o := Nat.max_eq_right (by omega)
      have hlt : ¬ t.length ≤ m := h2
      have hdroplen : (t.drop (max 1 (m - o))).length = t.length - (m - o) := by
        rw [List.length_drop, hstep]
      have hrec := ih (t.drop (max 1 (m - o)))
        (by rw [hdroplen]; omega) (ord + 1) (pos + max 1 (m - o))
      cases hr : fixedChunksGo m o offs (ord + 1) (pos + max 1 (m - o))
          (t.drop (max 1 (m - o))) with
      | nil =>
        rw [hr] at hrec
        rw [spanChainFrom] at hrec
        rw [hdroplen, hstep] at hrec
        omega
      | cons c2 rest2 =>
        rw [hr] at hrec
        rw [hstep] at hrec
        have hc2 := spanChainFrom_head_start o _ _ c2 rest2 hrec
        rw [spanChainFrom]
        refine ⟨rfl, ?_, ?_, ?_⟩
        · show pos + m = pos + (t.take m).length
          rw [List.length_take]
          omega
        · show c2.span_start + o = pos + m
          rw [hc2]
          omega
        · rw [hc2]
          have harith : pos + (m - o) + (List.drop (m - o) t).length =
              pos + t.length := by
            rw [List.length_drop]
            omega
          rw [← harith]
          exact hrec

end Pipeline

namespace Pipeline

theorem chunksOf_flatten {α : Type} (k : Nat) :
    ∀ (n : Nat) (l : List α), l.length ≤ n → (chunksOf k l).flatten = l := by
  intro n
  induction n with
  | zero =>
    intro l hl
    have he : l = [] := List.eq_nil_of_length_eq_zero (Nat.le_zero.mp hl)
    subst he
    rw [chunksOf]
    rfl
  | succ m ih =>
    intro l hl
    cases l with
    | nil =>
      rw [chunksOf]
      rfl
    | cons x xs =>
      rw [chunksOf]
      rw [List.flatten_cons]
      rw [ih ((x :: xs).drop (max 1 k)) (by
        rw [List.length_drop]
        have h1 : 1 ≤ max 1 k := Nat.le_max_left 1 k
        simp only [List.length_cons] at hl ⊢
        omega)]
      exact List.take_append_drop _ _

theorem splitUnitsGo_flatten :
    ∀ (t : List Char) (acc : List Char),
      (splitUnitsGo acc t).flatten = acc.reverse ++ t := by
  intro t
  induction t with
  | nil =>
    intro acc
    rw [splitUnitsGo]
    split_ifs with h
    · subst h
      simp
    · simp
  | cons c rest ih =>
    intro acc
    rw [splitUnitsGo]
    split_ifs with h
    · subst h
      rw [List.flatten_cons, ih []]
      simp
    · rw [ih (c :: acc)]
      simp

theorem packGo_flatten (m : Nat) :
    ∀ (us : List (List Char)) (cur : List Char),
      (packGo m cur us).flatten = cur ++ us.flatten := by
  intro us
  induction us with
  | nil =>
    intro cur
    rw [packGo]
    split_ifs with h
    · subst h
      simp
    · simp
  | cons u rest ih =>
    intro cur
    rw [packGo]
    split_ifs with h1 h2 h3 h4
    · subst h1
      rw [ih u]
      simp
    · subst h1
      rw [List.flatten_cons, ih []]
      simp
    · rw [ih (cur ++ u)]
      simp
    · rw [List.flatten_cons, ih u]
      simp
    · rw [List.flatten_cons, List.flatten_cons, ih []]
      simp

theorem withPages_fst (offs : List (Nat × Nat × Nat)) :
    ∀ (us : List (List Char)) (pos : Nat),
      (withPages offs pos us).map (fun s => s.1) = us := by
  intro us
  induction us with
  | nil =>
    intro pos
    rfl
  | cons u rest ih =>
    intro pos
    rw [withPages]
    simp only [List.map_cons]
    rw [ih]

theorem groups_segs_sum :
    ∀ (gs : List (List Page)),
      (((gs.map (fun g => ((g.map Page.text).flatten, g.map Page.page_number))).map
        (fun s => s.1.length)).sum) = ((gs.flatten.map Page.text).flatten).length := by
  intro gs
  induction gs with
  | nil => rfl
  | cons g rest ih =>
    simp only [List.map_cons, List.sum_cons, List.flatten_cons, List.map_append,
      List.flatten_append, List.length_append]
    rw [ih]

end Pipeline

namespace Pipeline

/-- Claim C3: the chunks of any single strategy run tile the document
text: the spans form a chain starting at 0 and ending at the text
length in which consecutive chunks share exactly the declared overlap
(zero for the page-aligned and semantic strategies, overlap_chars for
the fixed-size strategy), and consequently every character position of
[0, length) is covered by at least one chunk. -/
theorem strategy_span_coverage :
    (∀ (ov n : Nat) (cs : List Chunk), spanChain ov n cs →
      ∀ x, x < n → ∃ c ∈ cs, c.span_start ≤ x ∧ x < c.span_end) ∧
    (∀ (cfg : ChunkConfig) (d : ParsedDocument) (cs : List Chunk),
      pageAlignedChunks cfg d = .ok cs →
      spanChain 0 (docText d).length cs) ∧
    (∀ (cfg : ChunkConfig) (d : ParsedDocument) (cs : List Chunk),
      semanticChunks cfg d = .ok cs →
      spanChain 0 (docText d).length cs) ∧
    (∀ (cfg : ChunkConfig) (d : ParsedDocument) (cs : List Chunk),
      cfg.overlap_chars < cfg.max_chars →
      fixedSizeChunks cfg d = .ok cs →
      spanChain cfg.overlap_chars (docText d).length cs) := by
  refine ⟨?_, ?_, ?_, ?_⟩
  · intro ov n cs hch x hx
    exact spanChainFrom_covers ov n cs 0 hch x (Nat.zero_le x) hx
  · intro cfg d cs hcs
    unfold pageAlignedChunks at hcs
    simp only [Except.ok.injEq] at hcs
    subst hcs
    unfold spanChain
    have h := assemble_spanChain "page_aligned"
      ((chunksOf cfg.pages_per_chunk d.pages).map
        (fun g => ((g.map Page.text).flatten, g.map Page.page_number))) 0 0
    rw [groups_segs_sum] at h
    rw [chunksOf_flatten cfg.pages_per_chunk d.pages.length d.pages le_rfl] at h
    simpa [docText] using h
  · intro cfg d cs hcs
    unfold semanticChunks at hcs
    simp only [Except.ok.injEq] at hcs
    subst hcs
    unfold spanChain
    have h := assemble_spanChain "semantic"
      (withPages (pageOffsets 0 d.pages) 0
        (packGo cfg.max_chars [] (splitUnitsGo [] (docText d)))) 0 0
    have hmap : (withPages (pageOffsets 0 d.pages) 0
        (packGo cfg.max_chars [] (splitUnitsGo [] (docText d)))).map
          (fun s => s.1.length) =
        (packGo cfg.max_chars [] (splitUnitsGo [] (docText d))).map
          (fun l => l.length) := by
      have hcomp : (withPages (pageOffsets 0 d.pages) 0
          (packGo cfg.max_chars [] (splitUnitsGo [] (docText d)))).map
            (fun s => s.1.length) =
          ((withPages (pageOffsets 0 d.pages) 0
            (packGo cfg.max_chars [] (splitUnitsGo [] (docText d)))).map
              (fun s => s.1)).map (fun l => l.length) := by
        rw [List.map_map]
        rfl
      rw [hcomp, withPages_fst]
    rw [hmap] at h
    have hsum : ((packGo cfg.max_chars [] (splitUnitsGo [] (docText d))).map
        (fun l => l.length)).sum = (docText d).length := by
      have h1 : ((packGo cfg.max_chars [] (splitUnitsGo [] (docText d))).map
          (fun l => l.length)).sum =
          (packGo cfg.max_chars [] (splitUnitsGo [] (docText d))).flatten.length := by
        rw [List.length_flatten]
      rw [h1, packGo_flatten, splitUnitsGo_flatten]
      simp
    rw [hsum] at h
    simpa using h
  · intro cfg d cs hov hcs
    unfold fixedSizeChunks at hcs
    split_ifs at hcs with h
    simp only [Except.ok.injEq] at hcs
    subst hcs
    unfold spanChain
    have h := fixedChunksGo_spanChain cfg.max_chars cfg.overlap_chars hov
      (pageOffsets 0 d.pages) (docText d).length (docText d) le_rfl 0 0
    simpa using h

end Pipeline

namespace Pipeline

/-- Witness for C3: the fixed-size strategy on the 25-character demo
document produces a span chain, and position 12 of the text is covered
by one of its chunks. -/
theorem strategy_span_coverage_witness :
    spanChain 0 (docText demoDoc25).length
      (fixedChunksGo 10 0 (pageOffsets 0 demoDoc25.pages) 0 0
        (docText demoDoc25)) ∧
    ∃ c ∈ fixedChunksGo 10 0 (pageOffsets 0 demoDoc25.pages) 0 0
        (docText demoDoc25),
      c.span_start ≤ 12 ∧ 12 < c.span_end := by
  have hch := strategy_span_coverage.2.2.2 demoCfg10 demoDoc25
    (fixedChunksGo 10 0 (pageOffsets 0 demoDoc25.pages) 0 0
      (docText demoDoc25)) (by decide) rfl
  exact ⟨hch, strategy_span_coverage.1 0 (docText demoDoc25).length
    (fixedChunksGo 10 0 (pageOffsets 0 demoDoc25.pages) 0 0
      (docText demoDoc25)) hch 12 (by decide)⟩

end Pipeline
